import Mathlib

/-!
Verification of the dependency-resolution core of `cranlock`
(`src/cranlock/lock.py`).

The embedding below is a shallow model of the Python source:

* Python dicts become association lists (`List (String × α)`) preserving
  insertion order, with first-match lookup and update-in-place semantics
  (`lookupD`, `setItem`, `dictInsert`).
* Python sets (the dependency sets of the graph) become lists whose `add`
  is a no-op when the element is already present (`setAdd`).  Iteration
  order of a Python set is incidental; the model fixes insertion order.
* External effects are abstracted by oracles: the network-backed
  `get_dependencies` becomes a `Provider` function (returning `none` when
  the package page does not exist), and `requests.get` inside
  `get_info_table` becomes a `web` oracle.  Each model function also
  returns a log of the oracle calls it made, so that call-count
  properties are observable.
* Python's unbounded recursion is modelled with explicit fuel: a result
  of `none` means the computation did not finish within the given bound
  (for every bound), i.e. the Python program would recurse without
  returning.  A result of `some (.error e)` models a raised exception;
  the code only raises the generic `Exception` class (with a message) and
  `KeyError`, which the type `PyErr` mirrors.
-/

deriving instance DecidableEq for Except

namespace Cranlock

/-- First-match lookup in an association list, the model of
`d.get(k, None)` / `d[k]` on a Python dict. -/
def lookupD {α : Type} : List (String × α) → String → Option α
  | [], _ => none
  | (k, v) :: rest, key => if k = key then some v else lookupD rest key

/-- The model of `d[k] = v` on a Python dict: update the first entry with
key `k` in place (keeping insertion order), or append a new entry. -/
def setItem {α : Type} : List (String × α) → String → α → List (String × α)
  | [], k, v => [(k, v)]
  | (k', v') :: rest, k, v =>
    if k' = k then (k', v) :: rest else (k', v') :: setItem rest k v

/-- One step of Python's `dict(pairs)` construction. -/
def dictInsert {α : Type} (m : List (String × α)) (k : String) (v : α) :
    List (String × α) :=
  setItem m k v

/-- The model of Python's `dict(list_of_pairs)`: entries keep the position
of their first occurrence and the value of their last occurrence. -/
def dictOfList {α : Type} (l : List (String × α)) : List (String × α) :=
  l.foldl (fun m p => dictInsert m p.1 p.2) []

/-- The dependency tree built by `get_all_dependencies`: a mapping from a
package name to the tree of that dependency (`lock.py` lines 100-110). -/
inductive DepTree where
  | node : List (String × DepTree) → DepTree

/-- The dependency graph: a dict from package name to the set of its
direct dependencies (`lock.py` lines 113-141). -/
abbrev Graph := List (String × List String)

/-- The errors the Python code can raise: `Exception(msg)` (the generic
exception class, used both for missing packages and for cycles) and
`KeyError(key)`. -/
inductive PyErr where
  | exn : String → PyErr
  | keyError : String → PyErr
  deriving DecidableEq, Repr

/-- The dependency provider abstracting `get_dependencies` (lines 79-92):
`none` models the package page not existing (which makes
`get_info_table` raise), `some deps` the parsed direct-dependency list. -/
abbrev Provider := String → Option (List String)

/-- The message of the generic `Exception` raised by `get_info_table` on
line 72 when the response status is not 200. -/
def unknownMsg (package : String) : String :=
  "Package " ++ package ++ " does not exist"

/-- Fold with early stop, the model of a Python `for` loop whose body can
raise: once the accumulator is a raised error (or fuel exhaustion) it is
returned unchanged past the remaining elements. -/
def stopFold {σ : Type} (next : String → σ → Option (Except PyErr σ)) :
    List String → Option (Except PyErr σ) → Option (Except PyErr σ)
  | ds, acc => ds.foldl (fun acc d =>
      match acc with
      | some (.ok st) => next d st
      | r => r) acc

/-- Model of `get_all_dependencies` (lines 100-110).  The cache argument
models the module-global `dependencies_cache`: it is consulted, but —
exactly as in the source — never written.  The `log` records each call
to `get_dependencies` (line 105).  The inner `foldl` is the `reduce` of
lines 108-110, expanding each first-level dependency in order and
accumulating `(dependency, tree)` pairs; once an error (or fuel
exhaustion) occurs it is propagated unchanged.  `none` = out of fuel:
the Python recursion would not return within any bound. -/
def getAllDependencies (prov : Provider) :
    Nat → List (String × DepTree) → String → List String →
    Option (Except PyErr (DepTree × List String))
  | 0, _, _, _ => none
  | fuel + 1, cache, package, log =>
    match lookupD cache package with
    | some t => some (.ok (t, log))
    | none =>
      match prov package with
      | none => some (.error (.exn (unknownMsg package)))
      | some deps =>
        match stopFold (fun d st =>
            match getAllDependencies prov fuel cache d st.2 with
            | none => none
            | some (.error e) => some (.error e)
            | some (.ok (t, log'')) => some (.ok (st.1 ++ [(d, t)], log'')))
            deps (some (.ok ([], log ++ [package]))) with
        | none => none
        | some (.error e) => some (.error e)
        | some (.ok (pairs, log')) =>
          some (.ok (.node (dictOfList pairs), log'))

/-- Model of `graph[dep].add(nested)` (line 129): add a member to the
dependency set of the first entry with key `dep`. -/
def setAdd : Graph → String → String → Graph
  | [], _, _ => []
  | (k, s) :: rest, dep, nested =>
    if k = dep then
      (k, if nested ∈ s then s else s ++ [nested]) :: rest
    else
      (k, s) :: setAdd rest dep nested

/-- `addNesteds g dep keys` folds `setAdd` over the nested keys, the loop
on lines 128-129. -/
def addNesteds (g : Graph) (dep : String) (ks : List String) : Graph :=
  ks.foldl (fun g' k => setAdd g' dep k) g

/-- The `for dep, nesteds in dependency_tree.items()` loop of
`add_to_graph` (lines 120-131): ensure `dep` has an entry, skip empty
nested trees (`continue`), otherwise add the nested keys to `dep`'s set
and recurse into the nested tree before moving to the next entry. -/
def addEntries : Graph → List (String × DepTree) → Graph
  | g, [] => g
  | g, (dep, DepTree.node nes) :: rest =>
    let g1 := if (lookupD g dep).isNone then g ++ [(dep, [])] else g
    if nes.isEmpty then addEntries g1 rest
    else addEntries (addEntries (addNesteds g1 dep (nes.map Prod.fst)) nes) rest

/-- Model of `add_to_graph` (lines 113-131); the tree is a dict, so the
empty-tree early return and the per-entry loop collapse into the single
recursion `addEntries` over the entry list. -/
def addToGraph (g : Graph) : DepTree → Graph
  | .node entries => addEntries g entries

/-- Model of `get_dependency_graph`'s `dict(map(...))` on line 137:
build the per-root trees in order, threading the provider-call log.
Each call starts from the module-global `dependencies_cache`, which is
empty and — since the code never writes it — stays empty. -/
def rootTrees (prov : Provider) (fuel : Nat) :
    List String → List String →
    Option (Except PyErr (List (String × DepTree) × List String))
  | [], log => some (.ok ([], log))
  | p :: rest, log =>
    match getAllDependencies prov fuel [] p log with
    | none => none
    | some (.error e) => some (.error e)
    | some (.ok (t, log')) =>
      match rootTrees prov fuel rest log' with
      | none => none
      | some (.error e) => some (.error e)
      | some (.ok (pairs, log'')) => some (.ok ((p, t) :: pairs, log''))

/-- Model of `get_dependency_graph` (lines 134-141). -/
def getDependencyGraph (prov : Provider) (fuel : Nat) (roots : List String) :
    Option (Except PyErr (Graph × List String)) :=
  match rootTrees prov fuel roots [] with
  | none => none
  | some (.error e) => some (.error e)
  | some (.ok (pairs, log)) =>
    some (.ok (addToGraph [] (.node (dictOfList pairs)), log))

/-- The three visitation marks (lines 144-147). -/
inductive Mark where
  | Permanent
  | Temporary
  | Empty
  deriving DecidableEq, Repr

/-- The visitation dict of the sorter. -/
abbrev Visited := List (String × Mark)

/-- Model of `get_first_unvisited` (lines 150-156). -/
def getFirstUnvisited (visited : Visited) : Option String :=
  (visited.find? (fun p => p.2 == Mark.Empty)).map Prod.fst

/-- The message of the generic `Exception` raised on line 166. -/
def cycleMsg : String :=
  "Somehow, the dependency graph is not directed and acyclic"

/-- Model of `visit` (lines 159-177).  The inner `foldl` is the
`for child_node in graph[node]` loop (lines 170-171); a raised error (or
fuel exhaustion) is propagated unchanged past the remaining children.
`none` = out of fuel (the Python code recursing deeper than the given
bound). -/
def visit : Nat → Graph → String → Visited → List String →
    Option (Except PyErr (Visited × List String))
  | 0, _, _, _, _ => none
  | fuel + 1, graph, node, visited, output =>
    match lookupD visited node with
    | none => some (.error (.keyError node))
    | some .Permanent => some (.ok (visited, output))
    | some .Temporary => some (.error (.exn cycleMsg))
    | some .Empty =>
      let visited1 := setItem visited node .Temporary
      match lookupD graph node with
      | none => some (.error (.keyError node))
      | some children =>
        match stopFold (fun c st => visit fuel graph c st.1 st.2)
            children (some (.ok (visited1, output))) with
        | none => none
        | some (.error e) => some (.error e)
        | some (.ok (v2, o2)) =>
          some (.ok (setItem v2 node .Permanent, o2 ++ [node]))

/-- The `while node is not None` loop of `sort_dependency_graph`
(lines 186-192), bounded by fuel. -/
def sortLoop : Nat → Graph → Visited → List String →
    Option (Except PyErr (List String))
  | 0, _, _, _ => none
  | fuel + 1, graph, visited, output =>
    match getFirstUnvisited visited with
    | none => some (.ok output)
    | some node =>
      match visit (fuel + 1) graph node visited output with
      | none => none
      | some (.error e) => some (.error e)
      | some (.ok (v', o')) =>
        sortLoop fuel graph (setItem v' node .Permanent) o'

/-- Model of `sort_dependency_graph` (lines 180-194).  The fuel
`graph.length + 1` is proved sufficient below: for well-formed graphs the
result is never `none`. -/
def sortDependencyGraph (graph : Graph) : Option (Except PyErr (List String)) :=
  sortLoop (graph.length + 1) graph
    (graph.map (fun p => (p.1, Mark.Empty))) []

/-- An HTTP response as far as the caching logic observes it:
`requests.Response` truthiness is `status_code < 400`. -/
structure Response where
  status : Nat
  text : String
  deriving DecidableEq, Repr

/-- Python `bool(response)` for a `requests.Response`. -/
def respTruthy (r : Response) : Bool := r.status < 400

/-- Model of the `url_cache` logic of `get_info_table` (lines 65-69):
given a `web` oracle for `requests.get`, return the updated cache, the
response used, and the list of URLs actually fetched.  A cached falsy
response is refetched (the `if url_cache.get(url, None):` truthiness
test), and a fetched response is stored back into the cache. -/
def getInfoTableResponse (web : String → Response)
    (cache : List (String × Response)) (url : String) :
    List (String × Response) × Response × List String :=
  match lookupD cache url with
  | some r =>
    if respTruthy r then (cache, r, [])
    else
      let nr := web url
      (dictInsert cache url nr, nr, [url])
  | none =>
    let nr := web url
    (dictInsert cache url nr, nr, [url])

/-! ### Graph predicates -/

/-- The keys of a graph (its node names). -/
def keys (g : Graph) : List String := g.map Prod.fst

/-- `edge g p d`: the graph records `d` as a direct dependency of `p`. -/
def edge (g : Graph) (p d : String) : Prop :=
  ∃ deps, lookupD g p = some deps ∧ d ∈ deps

/-- The graph has no (nonempty) dependency cycle. -/
def Acyclic (g : Graph) : Prop :=
  ∀ x, ¬ Relation.TransGen (edge g) x x

/-- Closure invariant: every member of a dependency set is a key. -/
def Closed (g : Graph) : Prop :=
  ∀ p ∈ g, ∀ d ∈ p.2, d ∈ keys g

instance (g : Graph) : Decidable (Closed g) := by
  unfold Closed keys
  infer_instance

/-- Index of the first occurrence of a string in a list (list length if
absent). -/
def idxOf : List String → String → Nat
  | [], _ => 0
  | x :: rest, a => if x = a then 0 else idxOf rest a + 1

/-- The provider of the shared-dependency scenario of spec §8: roots `A`
and `B` both depend directly on `C`, and `C` has no dependencies. -/
def prov6 : Provider := fun p =>
  if p = "A" then some ["C"]
  else if p = "B" then some ["C"]
  else if p = "C" then some []
  else none

/-- A provider reporting a true dependency cycle `A → B → A`. -/
def provCyc : Provider := fun p =>
  if p = "A" then some ["B"] else if p = "B" then some ["A"] else none

/-- A provider for which no package exists. -/
def provU : Provider := fun _ => none

/-- `true` exactly on the errors modelling Python's generic `Exception`
class (as opposed to a dedicated, typed error class). -/
def isGenericException : PyErr → Bool
  | .exn _ => true
  | .keyError _ => false

/-- One step of the provider's dependency relation: `y` is among the
direct dependencies the provider reports for `x`. -/
def provStep (prov : Provider) (x y : String) : Prop :=
  ∃ deps, prov x = some deps ∧ y ∈ deps

/-- A provider where `A` exists and depends on `B`, but `B` (a transitive
dependency, not a root) does not exist. -/
def provT : Provider := fun p => if p = "A" then some ["B"] else none

/-! ### Association-list lemmas -/

theorem lookupD_isSome_iff {α : Type} {m : List (String × α)} {k : String} :
    (lookupD m k).isSome = true ↔ k ∈ m.map Prod.fst := by
  induction m with
  | nil => simp [lookupD]
  | cons p rest ih =>
    obtain ⟨k', v'⟩ := p
    by_cases hk : k' = k
    · subst hk; simp [lookupD]
    · simp [lookupD, hk, ih, Ne.symm hk]

theorem lookupD_eq_none_iff {α : Type} {m : List (String × α)} {k : String} :
    lookupD m k = none ↔ k ∉ m.map Prod.fst := by
  rw [← lookupD_isSome_iff, Option.isSome_iff_exists]
  cases lookupD m k <;> simp

theorem lookupD_mem {α : Type} {m : List (String × α)} {k : String} {v : α}
    (h : lookupD m k = some v) : (k, v) ∈ m := by
  induction m with
  | nil => simp [lookupD] at h
  | cons p rest ih =>
    obtain ⟨k', v'⟩ := p
    by_cases hk : k' = k
    · subst hk
      simp [lookupD] at h
      simp [h]
    · simp [lookupD, hk] at h
      exact List.mem_cons_of_mem _ (ih h)

theorem lookupD_append_left {α : Type} {m : List (String × α)} {k : String} {v : α}
    (h : lookupD m k = some v) (m' : List (String × α)) :
    lookupD (m ++ m') k = some v := by
  induction m with
  | nil => simp [lookupD] at h
  | cons p rest ih =>
    obtain ⟨k', v'⟩ := p
    by_cases hk : k' = k
    · simp_all [lookupD]
    · simp_all [lookupD, hk]

theorem lookupD_append_none {α : Type} {m : List (String × α)} {k : String}
    (h : lookupD m k = none) (m' : List (String × α)) :
    lookupD (m ++ m') k = lookupD m' k := by
  induction m with
  | nil => simp
  | cons p rest ih =>
    obtain ⟨k', v'⟩ := p
    by_cases hk : k' = k
    · simp [lookupD, hk] at h
    · simp_all [lookupD, hk]

/-! ### Graph-merger lemmas (`add_to_graph`) -/

theorem setAdd_keys (g : Graph) (dep x : String) :
    keys (setAdd g dep x) = keys g := by
  induction g with
  | nil => rfl
  | cons p rest ih =>
    obtain ⟨k, s⟩ := p
    by_cases hk : k = dep <;> simp_all [setAdd, keys]

theorem addNesteds_keys (g : Graph) (dep : String) (ks : List String) :
    keys (addNesteds g dep ks) = keys g := by
  induction ks generalizing g with
  | nil => rfl
  | cons x rest ih => simp [addNesteds, List.foldl] at ih ⊢; rw [ih, setAdd_keys]

theorem setAdd_mem {g : Graph} {dep x : String} {p : String × List String}
    (h : p ∈ setAdd g dep x) :
    ∃ q ∈ g, p.1 = q.1 ∧ ∀ m ∈ p.2, m ∈ q.2 ∨ m = x := by
  induction g with
  | nil => simp [setAdd] at h
  | cons q0 rest ih =>
    obtain ⟨k, s⟩ := q0
    by_cases hk : k = dep
    · simp only [setAdd, if_pos hk] at h
      rcases List.mem_cons.mp h with h1 | h1
      · subst h1
        refine ⟨(k, s), List.mem_cons_self _ _, rfl, ?_⟩
        intro m hm
        by_cases hx : x ∈ s
        · simp [hx] at hm; exact Or.inl hm
        · simp [hx] at hm
          rcases hm with h2 | h2
          · exact Or.inl h2
          · exact Or.inr h2
      · exact ⟨p, List.mem_cons_of_mem _ h1, rfl, fun m hm => Or.inl hm⟩
    · simp only [setAdd, if_neg hk] at h
      rcases List.mem_cons.mp h with h1 | h1
      · subst h1; exact ⟨(k, s), List.mem_cons_self _ _, rfl, fun m hm => Or.inl hm⟩
      · obtain ⟨q, hq, h2, h3⟩ := ih h1
        exact ⟨q, List.mem_cons_of_mem _ hq, h2, h3⟩

theorem addNesteds_mem {g : Graph} {dep : String} {ks : List String}
    {p : String × List String} (h : p ∈ addNesteds g dep ks) :
    ∃ q ∈ g, p.1 = q.1 ∧ ∀ m ∈ p.2, m ∈ q.2 ∨ m ∈ ks := by
  induction ks generalizing g with
  | nil => exact ⟨p, h, rfl, fun m hm => Or.inl hm⟩
  | cons x rest ih =>
    simp only [addNesteds, List.foldl] at h
    obtain ⟨q, hq, h1, h2⟩ := ih (g := setAdd g dep x) h
    obtain ⟨q', hq', h3, h4⟩ := setAdd_mem hq
    refine ⟨q', hq', h1.trans h3, ?_⟩
    intro m hm
    rcases h2 m hm with h5 | h5
    · rcases h4 m h5 with h6 | h6
      · exact Or.inl h6
      · exact Or.inr (by simp [h6])
    · exact Or.inr (List.mem_cons_of_mem _ h5)

/-- `Ext g g'`: the graph `g'` extends `g` — every key of `g` is still a
key of `g'` and its dependency set only grew. -/
def Ext (g g' : Graph) : Prop :=
  ∀ k s, lookupD g k = some s → ∃ s', lookupD g' k = some s' ∧ s ⊆ s'

theorem ext_refl (g : Graph) : Ext g g :=
  fun _ s h => ⟨s, h, List.Subset.refl s⟩

theorem ext_trans {g1 g2 g3 : Graph} (h12 : Ext g1 g2) (h23 : Ext g2 g3) :
    Ext g1 g3 := by
  intro k s h
  obtain ⟨s', h', hsub⟩ := h12 k s h
  obtain ⟨s'', h'', hsub'⟩ := h23 k s' h'
  exact ⟨s'', h'', hsub.trans hsub'⟩

theorem ext_appendEntry (g : Graph) (e : String × List String) :
    Ext g (g ++ [e]) :=
  fun _ s h => ⟨s, lookupD_append_left h _, List.Subset.refl s⟩

theorem lookupD_setAdd {g : Graph} {dep x k : String} {s' : List String}
    (h : lookupD (setAdd g dep x) k = some s') :
    ∃ s, lookupD g k = some s ∧ s ⊆ s' := by
  induction g with
  | nil => simp [setAdd, lookupD] at h
  | cons p rest ih =>
    obtain ⟨k0, s0⟩ := p
    by_cases hdep : k0 = dep
    · simp only [setAdd, if_pos hdep] at h
      by_cases hk : k0 = k
      · simp only [lookupD, if_pos hk] at h ⊢
        refine ⟨s0, rfl, ?_⟩
        cases h
        by_cases hx : x ∈ s0 <;> simp [hx]
      · simp only [lookupD, if_neg hk] at h ⊢
        exact ⟨s', h, List.Subset.refl _⟩
    · simp only [setAdd, if_neg hdep] at h
      by_cases hk : k0 = k
      · simp only [lookupD, if_pos hk] at h ⊢
        exact ⟨s', h, List.Subset.refl _⟩
      · simp only [lookupD, if_neg hk] at h ⊢
        exact ih h

theorem ext_setAdd (g : Graph) (dep x : String) : Ext g (Cranlock.setAdd g dep x) := by
  intro k s h
  induction g with
  | nil => simp [lookupD] at h
  | cons p rest ih =>
    obtain ⟨k0, s0⟩ := p
    by_cases hdep : k0 = dep
    · simp only [Cranlock.setAdd, if_pos hdep]
      by_cases hk : k0 = k
      · simp only [lookupD, if_pos hk] at h ⊢
        cases h
        by_cases hx : x ∈ s <;> simp [hx]
      · simp only [lookupD, if_neg hk] at h ⊢
        exact ⟨s, h, List.Subset.refl _⟩
    · simp only [Cranlock.setAdd, if_neg hdep]
      by_cases hk : k0 = k
      · simp only [lookupD, if_pos hk] at h ⊢
        injection h with h2
        subst h2
        exact ⟨_, rfl, List.Subset.refl _⟩
      · simp only [lookupD, if_neg hk] at h ⊢
        exact ih h

theorem ext_addNesteds (g : Graph) (dep : String) (ks : List String) :
    Ext g (Cranlock.addNesteds g dep ks) := by
  induction ks generalizing g with
  | nil => exact ext_refl g
  | cons x rest ih =>
    exact ext_trans (ext_setAdd g dep x) (ih (Cranlock.setAdd g dep x))

/-- `add_to_graph` only grows the graph: old keys survive and old
dependency sets are preserved as subsets. -/
theorem addEntries_ext (g : Graph) (es : List (String × DepTree)) :
    Ext g (addEntries g es) := by
  induction g, es using addEntries.induct with
  | case1 g => rw [addEntries]; exact ext_refl g
  | case2 g dep nes rest g1 hemp ih =>
    rw [addEntries, if_pos hemp]
    refine ext_trans ?_ ih
    by_cases h : (lookupD g dep).isNone <;> simp only [g1, h]
    · exact ext_appendEntry g _
    · simp; exact ext_refl g
  | case3 g dep nes rest g1 hemp ih1 ih2 ih3 =>
    rw [addEntries, if_neg hemp]
    refine ext_trans ?_ (ext_trans (ext_addNesteds g1 dep (nes.map Prod.fst)) (ext_trans ih1 ih3))
    by_cases h : (lookupD g dep).isNone <;> simp only [g1, h]
    · exact ext_appendEntry g _
    · simp; exact ext_refl g

/-- Relaxed closure invariant: every dependency-set member of `g` is a
key of `g`, or is excused by the list `S` (of keys still to be added). -/
def ClosedBut (g : Graph) (S : List String) : Prop :=
  ∀ p ∈ g, ∀ m ∈ p.2, m ∈ keys g ∨ m ∈ S

/-- The ensure-key step of `add_to_graph` (lines 122-123). -/
def ensureKey (g : Graph) (dep : String) : Graph :=
  if (lookupD g dep).isNone then g ++ [(dep, [])] else g

theorem keys_ensureKey_sub (g : Graph) (dep : String) :
    keys g ⊆ keys (ensureKey g dep) := by
  unfold ensureKey
  by_cases h : (lookupD g dep).isNone <;> simp [h, keys]

theorem mem_keys_ensureKey (g : Graph) (dep : String) :
    dep ∈ keys (ensureKey g dep) := by
  unfold ensureKey
  by_cases h : (lookupD g dep).isNone
  · simp [h, keys]
  · simp only [h, if_false]
    rw [Bool.not_eq_true, Option.isNone_eq_false_iff] at h
    exact lookupD_isSome_iff.mp h

theorem closedBut_ensureKey {g : Graph} {dep : String} {X : List String}
    (h : ClosedBut g (dep :: X)) : ClosedBut (ensureKey g dep) X := by
  intro p hp m hm
  have hmem : p ∈ g ∨ p = (dep, ([] : List String)) := by
    unfold ensureKey at hp
    by_cases h0 : (lookupD g dep).isNone
    · simp [h0] at hp
      rcases hp with hp | hp
      · exact Or.inl hp
      · exact Or.inr (by simp [hp])
    · simp [h0] at hp
      exact Or.inl hp
  rcases hmem with hp' | hp'
  · rcases h p hp' m hm with h1 | h1
    · exact Or.inl (keys_ensureKey_sub g dep h1)
    · rcases List.mem_cons.mp h1 with h2 | h2
      · subst h2; exact Or.inl (mem_keys_ensureKey g m)
      · exact Or.inr h2
  · subst hp'; simp at hm

theorem closedBut_addNesteds {g : Graph} {dep : String} {ks X : List String}
    (h : ClosedBut g X) : ClosedBut (addNesteds g dep ks) (ks ++ X) := by
  intro p hp m hm
  obtain ⟨q, hq, _, hmem⟩ := addNesteds_mem hp
  rcases hmem m hm with h1 | h1
  · rcases h q hq m h1 with h2 | h2
    · refine Or.inl ?_
      have hk := addNesteds_keys g dep ks
      simp only [keys] at hk ⊢
      rw [hk]
      exact h2
    · exact Or.inr (List.mem_append_right _ h2)
  · exact Or.inr (List.mem_append_left _ h1)

/-- Closure generation: once all the first-level keys of the entry list
have been merged, every excused member became a key. -/
theorem closedBut_addEntries :
    ∀ (g : Graph) (es : List (String × DepTree)) (S : List String),
    ClosedBut g (es.map Prod.fst ++ S) → ClosedBut (addEntries g es) S := by
  intro g es
  induction g, es using addEntries.induct with
  | case1 g =>
    intro S h
    rw [addEntries]
    simpa using h
  | case2 g dep nes rest g1 hemp ih =>
    intro S h
    rw [addEntries, if_pos hemp]
    refine ih S ?_
    have : ClosedBut (ensureKey g dep) (List.map Prod.fst rest ++ S) :=
      closedBut_ensureKey (by simpa using h)
    simpa [ensureKey, g1] using this
  | case3 g dep nes rest g1 hemp ih1 ih2 ih3 =>
    intro S h
    rw [addEntries, if_neg hemp]
    refine ih3 S (ih1 (List.map Prod.fst rest ++ S) ?_)
    have h1 : ClosedBut (ensureKey g dep) (List.map Prod.fst rest ++ S) :=
      closedBut_ensureKey (by simpa using h)
    have h2 : ClosedBut (addNesteds (ensureKey g dep) dep (nes.map Prod.fst))
        (nes.map Prod.fst ++ (List.map Prod.fst rest ++ S)) :=
      closedBut_addNesteds h1
    simpa [ensureKey, g1] using h2

/-! ### Early-stop fold lemmas -/

theorem stopFold_nil {σ : Type} (next : String → σ → Option (Except PyErr σ))
    (acc : Option (Except PyErr σ)) : stopFold next [] acc = acc := rfl

theorem stopFold_cons {σ : Type} (next : String → σ → Option (Except PyErr σ))
    (d : String) (ds : List String) (st : σ) :
    stopFold next (d :: ds) (some (.ok st)) = stopFold next ds (next d st) := rfl

theorem stopFold_none {σ : Type} (next : String → σ → Option (Except PyErr σ)) :
    ∀ ds, stopFold next ds none = none := by
  intro ds
  induction ds with
  | nil => rfl
  | cons d rest ih => exact ih

theorem stopFold_error {σ : Type} (next : String → σ → Option (Except PyErr σ))
    (e : PyErr) : ∀ ds, stopFold next ds (some (.error e)) = some (.error e) := by
  intro ds
  induction ds with
  | nil => rfl
  | cons d rest ih => exact ih

/-! ### Tree-builder lemmas (`get_all_dependencies`) -/

/-- With the cyclic provider, expanding `A` or `B` exhausts every fuel
bound: the Python recursion of `get_all_dependencies` never returns.
The module-global `dependencies_cache` is empty (nothing ever writes to
it), which the empty cache argument reflects. -/
theorem getAllDependencies_provCyc_none :
    ∀ (fuel : Nat) (log : List String) (p : String), p = "A" ∨ p = "B" →
    getAllDependencies provCyc fuel [] p log = none := by
  intro fuel
  induction fuel with
  | zero => intro log p _; rfl
  | succ f ih =>
    intro log p hp
    rcases hp with rfl | rfl
    · have hB := ih (log ++ ["A"]) "B" (Or.inr rfl)
      simp [getAllDependencies, lookupD, provCyc, stopFold, hB]
    · have hA := ih (log ++ ["B"]) "A" (Or.inl rfl)
      simp [getAllDependencies, lookupD, provCyc, stopFold, hA]

/-- Walking the early-stop fold of the tree builder: an error outcome is
an error of a recursive `getAllDependencies` call. -/
theorem expandStep_error {prov : Provider} {f : Nat}
    {cache : List (String × DepTree)}
    (ih : ∀ {pkg : String} {log : List String} {e : PyErr},
      getAllDependencies prov f cache pkg log = some (.error e) →
      ∃ p, prov p = none ∧ e = .exn (unknownMsg p)) :
    ∀ (ds : List String) (st : List (String × DepTree) × List String)
    {e : PyErr},
    stopFold (fun d st =>
        match getAllDependencies prov f cache d st.2 with
        | none => none
        | some (.error e) => some (.error e)
        | some (.ok (t, log'')) => some (.ok (st.1 ++ [(d, t)], log'')))
      ds (some (.ok st)) = some (.error e) →
    ∃ p, prov p = none ∧ e = .exn (unknownMsg p) := by
  intro ds
  induction ds with
  | nil => intro st e h; rw [stopFold_nil] at h; simp at h
  | cons d rest ih0 =>
    intro st e h
    rw [stopFold_cons] at h
    match hrec : getAllDependencies prov f cache d st.2 with
    | none =>
      simp only [hrec] at h
      rw [stopFold_none] at h
      simp at h
    | some (.error e') =>
      simp only [hrec] at h
      rw [stopFold_error] at h
      simp at h
      subst h
      exact ih hrec
    | some (.ok (t, log'')) =>
      simp only [hrec] at h
      exact ih0 _ h

/-- Every error produced by the tree builder is the generic
`Exception("Package ... does not exist")` for a package the provider
cannot resolve. -/
theorem getAllDependencies_error {prov : Provider} :
    ∀ {fuel : Nat} {cache : List (String × DepTree)} {pkg : String}
    {log : List String} {e : PyErr},
    getAllDependencies prov fuel cache pkg log = some (.error e) →
    ∃ p, prov p = none ∧ e = .exn (unknownMsg p) := by
  intro fuel
  induction fuel with
  | zero => intro cache pkg log e h; simp [getAllDependencies] at h
  | succ f ih =>
    intro cache pkg log e h
    rw [getAllDependencies] at h
    match hc : lookupD cache pkg with
    | some t => simp [hc] at h
    | none =>
      simp only [hc] at h
      match hp : prov pkg with
      | none =>
        simp [hp] at h
        exact ⟨pkg, hp, h.symm⟩
      | some deps =>
        simp only [hp] at h
        match hsf : stopFold (fun d st =>
            match getAllDependencies prov f cache d st.2 with
            | none => none
            | some (.error e) => some (.error e)
            | some (.ok (t, log'')) => some (.ok (st.1 ++ [(d, t)], log'')))
            deps (some (.ok ([], log ++ [pkg]))) with
        | none => simp [hsf] at h
        | some (.error e') =>
          simp [hsf] at h
          subst h
          exact expandStep_error (fun h0 => ih h0) deps _ hsf
        | some (.ok (pairs, log')) => simp [hsf] at h

/-- Errors of the per-root tree building loop of `get_dependency_graph`
(line 137) are tree-builder errors. -/
theorem rootTrees_error {prov : Provider} {fuel : Nat} :
    ∀ {roots log e}, rootTrees prov fuel roots log = some (.error e) →
    ∃ p, prov p = none ∧ e = .exn (unknownMsg p) := by
  intro roots
  induction roots with
  | nil => intro log e h; simp [rootTrees] at h
  | cons r rest ih =>
    intro log e h
    rw [rootTrees] at h
    match hr : getAllDependencies prov fuel [] r log with
    | none => simp [hr] at h
    | some (.error e') =>
      simp [hr] at h
      subst h
      exact getAllDependencies_error hr
    | some (.ok (t, log')) =>
      simp only [hr] at h
      match hrt : rootTrees prov fuel rest log' with
      | none => simp [hrt] at h
      | some (.error e') =>
        simp [hrt] at h
        subst h
        exact ih hrt
      | some (.ok (pairs, log'')) => simp [hrt] at h

/-- Expanding a package the provider cannot resolve never succeeds (the
run-wide cache is empty, as nothing ever writes to it). -/
theorem getAllDependencies_unknown_not_ok {prov : Provider} {p : String}
    (hnone : prov p = none) (fuel : Nat) (log : List String)
    (y : DepTree × List String) :
    getAllDependencies prov fuel [] p log ≠ some (.ok y) := by
  intro h
  cases fuel with
  | zero => simp [getAllDependencies] at h
  | succ f =>
    rw [getAllDependencies] at h
    simp [lookupD, hnone] at h

/-- If some root does not exist according to the provider, the per-root
tree building loop cannot succeed. -/
theorem rootTrees_not_ok {prov : Provider} {fuel : Nat} :
    ∀ {roots log root x}, root ∈ roots → prov root = none →
    rootTrees prov fuel roots log ≠ some (.ok x) := by
  intro roots
  induction roots with
  | nil => intro log root x hmem _ _; simp at hmem
  | cons r rest ih =>
    intro log root x hmem hnone h
    rw [rootTrees] at h
    match hr : getAllDependencies prov fuel [] r log with
    | none => rw [hr] at h; simp at h
    | some (.error e') => rw [hr] at h; simp at h
    | some (.ok (t, log')) =>
      rcases List.mem_cons.mp hmem with rfl | hmem'
      · exact getAllDependencies_unknown_not_ok hnone fuel log _ hr
      · simp only [hr] at h
        match hrt : rootTrees prov fuel rest log' with
        | none => simp [hrt] at h
        | some (.error e') => simp [hrt] at h
        | some (.ok (pairs, log'')) => exact ih hmem' hnone hrt

/-- A fold that ran to a successful end ran its body successfully on
every element of the list. -/
theorem stopFold_ok_each {σ : Type} (next : String → σ → Option (Except PyErr σ)) :
    ∀ (ds : List String) (st st' : σ),
    stopFold next ds (some (.ok st)) = some (.ok st') →
    ∀ d ∈ ds, ∃ s1 s2, next d s1 = some (.ok s2) := by
  intro ds
  induction ds with
  | nil => intro st st' _ d hd; simp at hd
  | cons c rest ih =>
    intro st st' h d hd
    rw [stopFold_cons] at h
    match hc : next c st with
    | none => simp only [hc] at h; rw [stopFold_none] at h; simp at h
    | some (.error e) => simp only [hc] at h; rw [stopFold_error] at h; simp at h
    | some (.ok st2) =>
      simp only [hc] at h
      rcases List.mem_cons.mp hd with rfl | hd'
      · exact ⟨st, st2, hc⟩
      · exact ih st2 st' h d hd'

/-- A successful expansion of a package implies the provider resolved it
and every one of its direct dependencies was expanded successfully (the
run-wide cache is empty, as nothing ever writes it, so no expansion is
skipped). -/
theorem getAllDependencies_ok_children {prov : Provider} {fuel : Nat}
    {p0 : String} {log : List String} {y : DepTree × List String}
    (h : getAllDependencies prov (fuel + 1) [] p0 log = some (.ok y)) :
    ∃ deps, prov p0 = some deps ∧
      ∀ d ∈ deps, ∃ log1 y1,
        getAllDependencies prov fuel [] d log1 = some (.ok y1) := by
  rw [getAllDependencies] at h
  match hp : prov p0 with
  | none => simp [lookupD, hp] at h
  | some deps =>
    simp only [lookupD, hp] at h
    refine ⟨deps, rfl, ?_⟩
    match hsf : stopFold (fun d st =>
        match getAllDependencies prov fuel [] d st.2 with
        | none => none
        | some (.error e) => some (.error e)
        | some (.ok (t, log'')) => some (.ok (st.1 ++ [(d, t)], log'')))
        deps (some (.ok ([], log ++ [p0]))) with
    | none => simp [hsf] at h
    | some (.error e) => simp [hsf] at h
    | some (.ok st') =>
      intro d hd
      obtain ⟨s1, s2, hnext⟩ := stopFold_ok_each _ deps _ st' hsf d hd
      match hrec : getAllDependencies prov fuel [] d s1.2 with
      | none => simp only [hrec] at hnext; simp at hnext
      | some (.error e) => simp only [hrec] at hnext; simp at hnext
      | some (.ok (t, l2)) => exact ⟨s1.2, (t, l2), hrec⟩

/-- A successful expansion certifies that every package reachable from
the expanded one through provider-reported dependencies exists. -/
theorem getAllDependencies_ok_reaches {prov : Provider} :
    ∀ {fuel : Nat} {p0 : String} {log : List String}
    {y : DepTree × List String} {p : String},
    getAllDependencies prov fuel [] p0 log = some (.ok y) →
    Relation.ReflTransGen (provStep prov) p0 p → prov p ≠ none := by
  intro fuel
  induction fuel with
  | zero => intro p0 log y p h _; simp [getAllDependencies] at h
  | succ f ih =>
    intro p0 log y p h hreach
    obtain ⟨deps, hprov, hch⟩ := getAllDependencies_ok_children h
    rcases Relation.ReflTransGen.cases_head hreach with rfl | ⟨q, hstep, htail⟩
    · simp [hprov]
    · obtain ⟨deps', hprov', hq⟩ := hstep
      rw [hprov] at hprov'
      injection hprov' with hdeps
      subst hdeps
      obtain ⟨log1, y1, hrec⟩ := hch q hq
      exact ih hrec htail

/-- A successful per-root tree building loop certifies that every package
reachable from any root through provider-reported dependencies exists. -/
theorem rootTrees_ok_reaches {prov : Provider} {fuel : Nat} :
    ∀ {roots log : List String}
    {x : List (String × DepTree) × List String},
    rootTrees prov fuel roots log = some (.ok x) →
    ∀ root ∈ roots, ∀ p, Relation.ReflTransGen (provStep prov) root p →
    prov p ≠ none := by
  intro roots
  induction roots with
  | nil => intro log x _ root hroot; simp at hroot
  | cons r rest ih =>
    intro log x h root hroot p hreach
    rw [rootTrees] at h
    match hr : getAllDependencies prov fuel [] r log with
    | none => simp [hr] at h
    | some (.error e') => simp [hr] at h
    | some (.ok (t, log')) =>
      simp only [hr] at h
      rcases List.mem_cons.mp hroot with rfl | hroot'
      · exact getAllDependencies_ok_reaches hr hreach
      · match hrt : rootTrees prov fuel rest log' with
        | none => simp [hrt] at h
        | some (.error e') => simp [hrt] at h
        | some (.ok x') => exact ih hrt root hroot' p hreach

/-! ### Topological-sorter machinery -/

/-- Numeric height of a mark along the DFS transitions
`Empty → Temporary → Permanent`. -/
def Mark.rank : Mark → Nat
  | .Empty => 0
  | .Temporary => 1
  | .Permanent => 2

/-- Pointwise evolution of the visitation dict: same keys in the same
order, and each mark only moves forward. -/
def MarkMono (v v' : Visited) : Prop :=
  List.Forall₂ (fun p q => p.1 = q.1 ∧ p.2.rank ≤ q.2.rank) v v'

/-- The set of `Temporary`-marked nodes is unchanged. -/
def TempIff (v v' : Visited) : Prop :=
  ∀ k, lookupD v' k = some .Temporary ↔ lookupD v k = some .Temporary

/-- Number of `Empty`-marked entries, the sorter's termination measure. -/
def countEmpty (v : Visited) : Nat := v.countP (fun p => p.2 == Mark.Empty)

/-- The output respects the graph: every recorded dependency of an
emitted package was emitted strictly earlier. -/
def OrdOK (g : Graph) (o : List String) : Prop :=
  ∀ l1 p l2, o = l1 ++ p :: l2 → ∀ d, edge g p d → d ∈ l1

/-- The running invariant of the sorter: the output has no duplicates,
contains exactly the `Permanent`-marked nodes, and respects the graph. -/
def Inv (g : Graph) (v : Visited) (o : List String) : Prop :=
  o.Nodup ∧ (∀ k, lookupD v k = some .Permanent ↔ k ∈ o) ∧ OrdOK g o

/-- What one (sub)run of `visit` guarantees about its state change. -/
def Post (g : Graph) (v : Visited) (o : List String)
    (v' : Visited) (o' : List String) : Prop :=
  MarkMono v v' ∧ TempIff v v' ∧ (∃ d, o' = o ++ d) ∧
    (Inv g v o → Inv g v' o')

theorem markMono_refl (v : Visited) : MarkMono v v := by
  unfold MarkMono
  induction v with
  | nil => exact List.Forall₂.nil
  | cons p rest ih => exact List.Forall₂.cons ⟨Eq.refl _, Nat.le_refl _⟩ ih

theorem markMono_trans {v1 v2 v3 : Visited}
    (h12 : MarkMono v1 v2) (h23 : MarkMono v2 v3) : MarkMono v1 v3 := by
  unfold MarkMono at h12 h23 ⊢
  induction h12 generalizing v3 with
  | nil => cases h23; exact List.Forall₂.nil
  | cons h1 h2 ih =>
    cases h23 with
    | cons h3 h4 =>
      exact List.Forall₂.cons ⟨h1.1.trans h3.1, h1.2.trans h3.2⟩ (ih h4)

theorem markMono_keysEq {v v' : Visited} (h : MarkMono v v') :
    v'.map Prod.fst = v.map Prod.fst := by
  induction h with
  | nil => rfl
  | cons h1 h2 ih => simp [ih, h1.1]

theorem markMono_lookup {v v' : Visited} (h : MarkMono v v') {k : String}
    {m : Mark} (hl : lookupD v k = some m) :
    ∃ m', lookupD v' k = some m' ∧ m.rank ≤ m'.rank := by
  induction h with
  | nil => simp [lookupD] at hl
  | @cons a b l1 l2 h1 h2 ih =>
    obtain ⟨ka, ma⟩ := a
    obtain ⟨kb, mb⟩ := b
    obtain ⟨hkey, hrank⟩ := h1
    simp only at hkey
    subst hkey
    by_cases hk : ka = k
    · simp only [lookupD, if_pos hk] at hl ⊢
      injection hl with hl1
      subst hl1
      exact ⟨mb, rfl, hrank⟩
    · simp only [lookupD, if_neg hk] at hl ⊢
      exact ih hl

theorem markMono_lookup_perm {v v' : Visited} (h : MarkMono v v')
    {k : String} (hl : lookupD v k = some .Permanent) :
    lookupD v' k = some .Permanent := by
  obtain ⟨m', hm', hr⟩ := markMono_lookup h hl
  cases m' <;> simp_all [Mark.rank]

theorem lookupD_setItem_self {α : Type} (m : List (String × α)) (k : String)
    (v : α) : lookupD (setItem m k v) k = some v := by
  induction m with
  | nil => simp [setItem, lookupD]
  | cons p rest ih =>
    obtain ⟨k0, v0⟩ := p
    by_cases hk : k0 = k
    · simp [setItem, lookupD, hk]
    · simp [setItem, lookupD, hk, ih]

theorem lookupD_setItem_ne {α : Type} (m : List (String × α))
    {k k' : String} (hk : k' ≠ k) (v : α) :
    lookupD (setItem m k v) k' = lookupD m k' := by
  induction m with
  | nil => simp [setItem, lookupD, Ne.symm hk]
  | cons p rest ih =>
    obtain ⟨k0, v0⟩ := p
    by_cases h0 : k0 = k
    · subst h0
      simp [setItem, lookupD, Ne.symm hk]
    · by_cases h1 : k0 = k'
      · simp [setItem, lookupD, h0, h1, hk]
      · simp [setItem, lookupD, h0, h1, ih]

theorem markMono_setItem {v : Visited} {k : String} {m0 m1 : Mark}
    (hl : lookupD v k = some m0) (hr : m0.rank ≤ m1.rank) :
    MarkMono v (setItem v k m1) := by
  induction v with
  | nil => simp [lookupD] at hl
  | cons p rest ih =>
    obtain ⟨k0, v0⟩ := p
    by_cases hk : k0 = k
    · simp only [lookupD, if_pos hk] at hl
      injection hl with hl1
      subst hl1
      simp only [setItem, if_pos hk]
      exact List.Forall₂.cons ⟨Eq.refl _, hr⟩ (markMono_refl rest)
    · simp only [lookupD, if_neg hk] at hl
      simp only [setItem, if_neg hk]
      exact List.Forall₂.cons ⟨Eq.refl _, Nat.le_refl _⟩ (ih hl)

theorem setItem_eq_of_lookup {α : Type} {m : List (String × α)} {k : String}
    {v : α} (h : lookupD m k = some v) : setItem m k v = m := by
  induction m with
  | nil => simp [lookupD] at h
  | cons p rest ih =>
    obtain ⟨k0, v0⟩ := p
    by_cases hk : k0 = k
    · simp only [lookupD, if_pos hk] at h
      injection h with h1
      subst h1
      simp [setItem, hk]
    · simp only [lookupD, if_neg hk] at h
      simp [setItem, hk, ih h]

theorem markMono_countEmpty_le {v v' : Visited} (h : MarkMono v v') :
    countEmpty v' ≤ countEmpty v := by
  induction h with
  | nil => exact Nat.le_refl _
  | @cons a b l1 l2 h1 h2 ih =>
    obtain ⟨_, hrank⟩ := h1
    simp only [countEmpty, List.countP_cons] at ih ⊢
    have : (if b.2 == Mark.Empty then 1 else 0) ≤
        (if a.2 == Mark.Empty then 1 else 0) := by
      cases hb : b.2 <;> cases ha : a.2 <;> simp_all [Mark.rank]
    omega

theorem countEmpty_setItem_succ {v : Visited} {n : String} {m : Mark}
    (hl : lookupD v n = some .Empty) (hm : m ≠ .Empty) :
    countEmpty (setItem v n m) + 1 = countEmpty v := by
  induction v with
  | nil => simp [lookupD] at hl
  | cons p rest ih =>
    obtain ⟨k0, m0⟩ := p
    by_cases hk : k0 = n
    · simp only [lookupD, if_pos hk] at hl
      injection hl with hl1
      subst hl1
      simp only [setItem, if_pos hk, countEmpty, List.countP_cons]
      cases m <;> simp_all [countEmpty]
    · simp only [lookupD, if_neg hk] at hl
      simp only [setItem, if_neg hk, countEmpty, List.countP_cons] at ih ⊢
      have := ih hl
      omega

theorem countEmpty_strict {v v' : Visited} (h : MarkMono v v') {n : String}
    (h0 : lookupD v n = some .Empty) (h1 : lookupD v' n = some .Permanent) :
    countEmpty v' < countEmpty v := by
  induction h with
  | nil => simp [lookupD] at h0
  | @cons a b l1 l2 hab htl ih =>
    obtain ⟨ka, ma⟩ := a
    obtain ⟨kb, mb⟩ := b
    obtain ⟨hkey, _⟩ := hab
    simp only at hkey
    subst hkey
    by_cases hk : ka = n
    · simp only [lookupD, if_pos hk] at h0 h1
      injection h0 with h0'
      injection h1 with h1'
      subst h0'
      subst h1'
      simp only [countEmpty, List.countP_cons]
      have := markMono_countEmpty_le htl
      simp only [countEmpty] at this
      simp
      omega
    · simp only [lookupD, if_neg hk] at h0 h1
      have hlt := ih h0 h1
      simp only [countEmpty, List.countP_cons] at hlt ⊢
      have : (if mb == Mark.Empty then 1 else 0) ≤
          (if ma == Mark.Empty then 1 else 0) := by
        cases mb <;> cases ma <;> simp_all [Mark.rank]
      omega

theorem post_refl (g : Graph) (v : Visited) (o : List String) :
    Post g v o v o :=
  ⟨markMono_refl v, fun _ => Iff.rfl, ⟨[], by simp⟩, id⟩

theorem post_trans {g : Graph} {v1 v2 v3 : Visited}
    {o1 o2 o3 : List String} (h12 : Post g v1 o1 v2 o2)
    (h23 : Post g v2 o2 v3 o3) : Post g v1 o1 v3 o3 := by
  refine ⟨markMono_trans h12.1 h23.1, fun k => (h23.2.1 k).trans (h12.2.1 k), ?_,
    fun hI => h23.2.2.2 (h12.2.2.2 hI)⟩
  obtain ⟨d1, e1⟩ := h12.2.2.1
  obtain ⟨d2, e2⟩ := h23.2.2.1
  exact ⟨d1 ++ d2, by rw [e2, e1, List.append_assoc]⟩

theorem append_singleton_split {o2 l1 l2 : List String} {n p : String}
    (h : o2 ++ [n] = l1 ++ p :: l2) :
    (∃ l2', o2 = l1 ++ p :: l2' ∧ l2 = l2' ++ [n]) ∨
      (l1 = o2 ∧ p = n ∧ l2 = []) := by
  rcases List.eq_nil_or_concat l2 with rfl | ⟨l2', x, rfl⟩
  · right
    have h2 := List.append_inj' h (by simp)
    obtain ⟨h3, h4⟩ := h2
    simp at h4
    exact ⟨h3.symm, h4.symm, rfl⟩
  · left
    rw [List.concat_eq_append] at h ⊢
    rw [show l1 ++ p :: (l2' ++ [x]) = (l1 ++ p :: l2') ++ [x] by simp] at h
    have h2 := List.append_inj' h (by simp)
    obtain ⟨h3, h4⟩ := h2
    simp at h4
    exact ⟨l2', h3, by rw [h4]⟩

/-- Walking the `for child_node in graph[node]` loop: a successful pass
over the children establishes `Post` and marks every child `Permanent`. -/
theorem visitFold_ok {g : Graph} {f : Nat}
    (ihv : ∀ {n : String} {v : Visited} {o : List String} {v' o'},
      visit f g n v o = some (.ok (v', o')) →
      Post g v o v' o' ∧ lookupD v' n = some .Permanent) :
    ∀ (cs : List String) {v : Visited} {o : List String} {v' o'},
    stopFold (fun c st => visit f g c st.1 st.2) cs (some (.ok (v, o))) =
      some (.ok (v', o')) →
    Post g v o v' o' ∧ ∀ c ∈ cs, lookupD v' c = some .Permanent := by
  intro cs
  induction cs with
  | nil =>
    intro v o v' o' h
    rw [stopFold_nil] at h
    injection h with h1
    injection h1 with h2
    rw [Prod.mk.injEq] at h2
    obtain ⟨rfl, rfl⟩ := h2
    exact ⟨post_refl g v o, by simp⟩
  | cons c rest ih =>
    intro v o v' o' h
    rw [stopFold_cons] at h
    match hc : visit f g c v o with
    | none => simp only [hc] at h; rw [stopFold_none] at h; simp at h
    | some (.error e) => simp only [hc] at h; rw [stopFold_error] at h; simp at h
    | some (.ok (vc, oc)) =>
      simp only [hc] at h
      obtain ⟨hpost1, hcperm⟩ := ihv hc
      obtain ⟨hpost2, hrest⟩ := ih h
      refine ⟨post_trans hpost1 hpost2, ?_⟩
      intro c' hc'
      rcases List.mem_cons.mp hc' with rfl | hc''
      · exact markMono_lookup_perm hpost2.1 hcperm
      · exact hrest c' hc''

/-- Soundness of a successful `visit`: the state change satisfies `Post`
and the visited node ends `Permanent`. -/
theorem visit_ok {g : Graph} :
    ∀ {fuel : Nat} {n : String} {v : Visited} {o : List String} {v' o'},
    visit fuel g n v o = some (.ok (v', o')) →
    Post g v o v' o' ∧ lookupD v' n = some .Permanent := by
  intro fuel
  induction fuel with
  | zero => intro n v o v' o' h; simp [visit] at h
  | succ f ih =>
    intro n v o v' o' h
    rw [visit] at h
    match hv : lookupD v n with
    | none => simp [hv] at h
    | some .Permanent =>
      simp only [hv] at h
      injection h with h1
      injection h1 with h2
      rw [Prod.mk.injEq] at h2
      obtain ⟨rfl, rfl⟩ := h2
      exact ⟨post_refl g v o, hv⟩
    | some .Temporary => simp [hv] at h
    | some .Empty =>
      simp only [hv] at h
      match hg : lookupD g n with
      | none => simp [hg] at h
      | some children =>
        simp only [hg] at h
        match hsf : stopFold (fun c st => visit f g c st.1 st.2) children
            (some (.ok (setItem v n .Temporary, o))) with
        | none => simp [hsf] at h
        | some (.error e) => simp [hsf] at h
        | some (.ok (v2, o2)) =>
          simp only [hsf] at h
          injection h with h1
          injection h1 with h2
          rw [Prod.mk.injEq] at h2
          obtain ⟨hv', ho'⟩ := h2
          subst hv'
          subst ho'
          obtain ⟨hpostF, hchildren⟩ := visitFold_ok (fun hx => ih hx) children hsf
          have hv1Temp : lookupD (setItem v n .Temporary) n = some .Temporary :=
            lookupD_setItem_self v n .Temporary
          have hv2Temp : lookupD v2 n = some .Temporary :=
            (hpostF.2.1 n).mpr hv1Temp
          have hmono : MarkMono v (setItem v2 n .Permanent) := by
            refine markMono_trans ?_ (markMono_setItem hv2Temp (by simp [Mark.rank]))
            exact markMono_trans (markMono_setItem hv (by simp [Mark.rank])) hpostF.1
          have hnPerm : lookupD (setItem v2 n .Permanent) n = some .Permanent :=
            lookupD_setItem_self v2 n .Permanent
          obtain ⟨delta, hdelta⟩ := hpostF.2.2.1
          refine ⟨⟨hmono, ?_, ⟨delta ++ [n], by rw [hdelta, List.append_assoc]⟩, ?_⟩, hnPerm⟩
          · -- TempIff end to end
            intro k
            by_cases hk : k = n
            · subst hk
              rw [hnPerm, hv]
              simp
            · rw [lookupD_setItem_ne v2 hk, hpostF.2.1 k,
                lookupD_setItem_ne v hk]
          · -- invariant preservation
            intro hInv
            obtain ⟨hNodup, hPermIff, hOrd⟩ := hInv
            have hnNotMemO : n ∉ o := fun hmem =>
              by have := (hPermIff n).mpr hmem; rw [hv] at this; simp at this
            have hInv1 : Inv g (setItem v n .Temporary) o := by
              refine ⟨hNodup, ?_, hOrd⟩
              intro k
              by_cases hk : k = n
              · subst hk
                rw [lookupD_setItem_self]
                simp [hnNotMemO]
              · rw [lookupD_setItem_ne v hk]
                exact hPermIff k
            have hInv2 : Inv g v2 o2 := hpostF.2.2.2 hInv1
            obtain ⟨hNodup2, hPermIff2, hOrd2⟩ := hInv2
            have hnNotMemO2 : n ∉ o2 := fun hmem => by
              have := (hPermIff2 n).mpr hmem
              rw [hv2Temp] at this
              simp at this
            refine ⟨?_, ?_, ?_⟩
            · simpa using List.Nodup.append hNodup2 (List.nodup_singleton n)
                (by simp [List.disjoint_singleton, hnNotMemO2])
            · intro k
              by_cases hk : k = n
              · subst hk
                rw [hnPerm]
                simp
              · rw [lookupD_setItem_ne v2 hk]
                rw [hPermIff2 k]
                simp [hk]
            · intro l1 p l2 hsplit d hedge
              rcases append_singleton_split hsplit with ⟨l2', hsp, _⟩ | ⟨rfl, rfl, rfl⟩
              · exact hOrd2 l1 p l2' hsp d hedge
              · obtain ⟨deps, hdeps, hd⟩ := hedge
                rw [hg] at hdeps
                injection hdeps with hdeps1
                subst hdeps1
                exact (hPermIff2 d).mp (hchildren d hd)

theorem mem_keys_lookup {α : Type} {m : List (String × α)} {k : String}
    (h : k ∈ m.map Prod.fst) : ∃ x, lookupD m k = some x := by
  have := lookupD_isSome_iff.mpr h
  exact Option.isSome_iff_exists.mp this

/-- Totality of `visit` on closed graphs with sufficient fuel: the call
returns, either successfully or with the generic cycle `Exception` —
never a `KeyError` and never by exhausting the recursion bound. -/
theorem visit_total {g : Graph} (hclosed : Closed g) :
    ∀ (fuel : Nat) (v : Visited) (o : List String) (n : String),
    v.map Prod.fst = keys g → n ∈ keys g → countEmpty v < fuel →
    (∃ v' o', visit fuel g n v o = some (.ok (v', o'))) ∨
      visit fuel g n v o = some (.error (.exn cycleMsg)) := by
  intro fuel
  induction fuel with
  | zero => intro v o n _ _ hf; omega
  | succ f ih =>
    intro v o n hkeys hn hf
    obtain ⟨m, hv⟩ := mem_keys_lookup (m := v) (by rw [hkeys]; exact hn)
    match m, hv with
    | .Permanent, hv =>
      left
      exact ⟨v, o, by rw [visit]; simp [hv]⟩
    | .Temporary, hv =>
      right
      rw [visit]
      simp [hv]
    | .Empty, hv =>
      obtain ⟨children, hg⟩ := mem_keys_lookup (m := g) hn
      have hsub : ∀ c ∈ children, c ∈ keys g :=
        fun c hc => hclosed (n, children) (lookupD_mem hg) c hc
      have hcount1 : countEmpty (setItem v n .Temporary) + 1 = countEmpty v :=
        countEmpty_setItem_succ hv (by simp)
      have hkeys1 : (setItem v n .Temporary).map Prod.fst = keys g := by
        rw [markMono_keysEq (markMono_setItem hv (by simp [Mark.rank]))]
        exact hkeys
      have hfold : ∀ (cs : List String) (v0 : Visited) (o0 : List String),
          (∀ c ∈ cs, c ∈ keys g) → v0.map Prod.fst = keys g →
          countEmpty v0 < f →
          (∃ v2 o2, stopFold (fun c st => visit f g c st.1 st.2) cs
              (some (.ok (v0, o0))) = some (.ok (v2, o2))) ∨
            stopFold (fun c st => visit f g c st.1 st.2) cs
              (some (.ok (v0, o0))) = some (.error (.exn cycleMsg)) := by
        intro cs
        induction cs with
        | nil => intro v0 o0 _ _ _; exact Or.inl ⟨v0, o0, stopFold_nil _ _⟩
        | cons c rest ihc =>
          intro v0 o0 hsub0 hkeys0 hf0
          rcases ih v0 o0 c hkeys0 (hsub0 c (by simp)) hf0 with ⟨vc, oc, hvc⟩ | hvc
          · obtain ⟨hpost, _⟩ := visit_ok hvc
            rw [stopFold_cons]
            simp only [hvc]
            exact ihc vc oc (fun c' hc' => hsub0 c' (List.mem_cons_of_mem _ hc'))
              (by rw [markMono_keysEq hpost.1]; exact hkeys0)
              (Nat.lt_of_le_of_lt (markMono_countEmpty_le hpost.1) hf0)
          · rw [stopFold_cons]
            simp only [hvc]
            rw [stopFold_error]
            exact Or.inr rfl
      rcases hfold children (setItem v n .Temporary) o hsub hkeys1 (by omega)
        with ⟨v2, o2, hsf⟩ | hsf
      · left
        exact ⟨setItem v2 n .Permanent, o2 ++ [n], by rw [visit]; simp [hv, hg, hsf]⟩
      · right
        rw [visit]
        simp [hv, hg, hsf]

/-- On a closed acyclic graph, `visit` always succeeds (given the path
condition that every `Temporary` node reaches the visited node). -/
theorem visit_acyclic {g : Graph} (hclosed : Closed g) (hacyc : Acyclic g) :
    ∀ (fuel : Nat) (v : Visited) (o : List String) (n : String),
    v.map Prod.fst = keys g → n ∈ keys g → countEmpty v < fuel →
    (∀ t, lookupD v t = some .Temporary → Relation.TransGen (edge g) t n) →
    ∃ v' o', visit fuel g n v o = some (.ok (v', o')) := by
  intro fuel
  induction fuel with
  | zero => intro v o n _ _ hf _; omega
  | succ f ih =>
    intro v o n hkeys hn hf hpath
    obtain ⟨m, hv⟩ := mem_keys_lookup (m := v) (by rw [hkeys]; exact hn)
    match m, hv with
    | .Permanent, hv => exact ⟨v, o, by rw [visit]; simp [hv]⟩
    | .Temporary, hv => exact absurd (hpath n hv) (hacyc n)
    | .Empty, hv =>
      obtain ⟨children, hg⟩ := mem_keys_lookup (m := g) hn
      have hsub : ∀ c ∈ children, c ∈ keys g :=
        fun c hc => hclosed (n, children) (lookupD_mem hg) c hc
      have hedge : ∀ c ∈ children, edge g n c := fun c hc => ⟨children, hg, hc⟩
      have hcount1 : countEmpty (setItem v n .Temporary) + 1 = countEmpty v :=
        countEmpty_setItem_succ hv (by simp)
      have hkeys1 : (setItem v n .Temporary).map Prod.fst = keys g := by
        rw [markMono_keysEq (markMono_setItem hv (by simp [Mark.rank]))]
        exact hkeys
      have hpath1 : ∀ t, lookupD (setItem v n .Temporary) t = some .Temporary →
          t = n ∨ Relation.TransGen (edge g) t n := by
        intro t ht
        by_cases htn : t = n
        · exact Or.inl htn
        · rw [lookupD_setItem_ne v htn] at ht
          exact Or.inr (hpath t ht)
      have hfold : ∀ (cs : List String) (v0 : Visited) (o0 : List String),
          (∀ c ∈ cs, c ∈ keys g) → (∀ c ∈ cs, edge g n c) →
          v0.map Prod.fst = keys g → countEmpty v0 < f →
          (∀ t, lookupD v0 t = some .Temporary →
            t = n ∨ Relation.TransGen (edge g) t n) →
          ∃ v2 o2, stopFold (fun c st => visit f g c st.1 st.2) cs
            (some (.ok (v0, o0))) = some (.ok (v2, o2)) := by
        intro cs
        induction cs with
        | nil => intro v0 o0 _ _ _ _ _; exact ⟨v0, o0, stopFold_nil _ _⟩
        | cons c rest ihc =>
          intro v0 o0 hsub0 hedge0 hkeys0 hf0 hpath0
          have hpathc : ∀ t, lookupD v0 t = some .Temporary →
              Relation.TransGen (edge g) t c := by
            intro t ht
            rcases hpath0 t ht with rfl | htg
            · exact Relation.TransGen.single (hedge0 c (by simp))
            · exact Relation.TransGen.tail htg (hedge0 c (by simp))
          obtain ⟨vc, oc, hvc⟩ :=
            ih v0 o0 c hkeys0 (hsub0 c (by simp)) hf0 hpathc
          obtain ⟨hpost, _⟩ := visit_ok hvc
          rw [stopFold_cons]
          simp only [hvc]
          refine ihc vc oc (fun c' hc' => hsub0 c' (List.mem_cons_of_mem _ hc'))
            (fun c' hc' => hedge0 c' (List.mem_cons_of_mem _ hc'))
            (by rw [markMono_keysEq hpost.1]; exact hkeys0)
            (Nat.lt_of_le_of_lt (markMono_countEmpty_le hpost.1) hf0) ?_
          intro t ht
          exact hpath0 t ((hpost.2.1 t).mp ht)
      obtain ⟨v2, o2, hsf⟩ := hfold children (setItem v n .Temporary) o
        hsub hedge hkeys1 (by omega) hpath1
      exact ⟨setItem v2 n .Permanent, o2 ++ [n], by rw [visit]; simp [hv, hg, hsf]⟩

/-- The invariant between iterations of the `while` loop of
`sort_dependency_graph`. -/
def LoopInv (g : Graph) (v : Visited) (o : List String) : Prop :=
  v.map Prod.fst = keys g ∧ (∀ k, lookupD v k ≠ some .Temporary) ∧ Inv g v o

theorem getFirstUnvisited_none {v : Visited}
    (h : getFirstUnvisited v = none) : ∀ p ∈ v, p.2 ≠ Mark.Empty := by
  intro p hp
  unfold getFirstUnvisited at h
  rw [Option.map_eq_none'] at h
  have := List.find?_eq_none.mp h p hp
  simpa using this

theorem getFirstUnvisited_lookup {v : Visited}
    (hnd : (v.map Prod.fst).Nodup) {n : String}
    (h : getFirstUnvisited v = some n) : lookupD v n = some .Empty := by
  induction v with
  | nil => simp [getFirstUnvisited] at h
  | cons p rest ih =>
    obtain ⟨k, m⟩ := p
    by_cases hm : m = Mark.Empty
    · subst hm
      unfold getFirstUnvisited at h
      rw [List.find?_cons_of_pos _ (by simp)] at h
      have h2 : k = n := by simpa using h
      subst h2
      simp [lookupD]
    · unfold getFirstUnvisited at h
      rw [List.find?_cons_of_neg _ (by simp [hm])] at h
      have hn : lookupD rest n = some .Empty :=
        ih (by simpa using hnd.of_cons) h
      have hnk : k ≠ n := by
        intro hkn
        subst hkn
        have hmem : k ∈ rest.map Prod.fst :=
          lookupD_isSome_iff.mp (by simp [hn])
        rw [List.map_cons] at hnd
        exact (List.nodup_cons.mp hnd).1 hmem
      simp [lookupD, hnk, hn]

/-- A successful run of the sorter's loop ends with no node unvisited and
the invariant carried to the final output. -/
theorem sortLoop_ok {g : Graph} :
    ∀ {fuel : Nat} {v : Visited} {o l : List String},
    sortLoop fuel g v o = some (.ok l) → LoopInv g v o →
    ∃ vf, LoopInv g vf l ∧ getFirstUnvisited vf = none ∧ ∃ d, l = o ++ d := by
  intro fuel
  induction fuel with
  | zero => intro v o l h _; simp [sortLoop] at h
  | succ f ih =>
    intro v o l h hInv
    rw [sortLoop] at h
    match hfu : getFirstUnvisited v with
    | none =>
      simp only [hfu] at h
      injection h with h1
      injection h1 with h2
      subst h2
      exact ⟨v, hInv, hfu, [], by simp⟩
    | some node =>
      simp only [hfu] at h
      match hvis : visit (f + 1) g node v o with
      | none => simp [hvis] at h
      | some (.error e) => simp [hvis] at h
      | some (.ok (v', o')) =>
        simp only [hvis] at h
        obtain ⟨hpost, hperm⟩ := visit_ok hvis
        rw [setItem_eq_of_lookup hperm] at h
        have hInv' : LoopInv g v' o' := by
          refine ⟨by rw [markMono_keysEq hpost.1]; exact hInv.1, ?_, hpost.2.2.2 hInv.2.2⟩
          intro k hk
          exact hInv.2.1 k ((hpost.2.1 k).mp hk)
        obtain ⟨vf, hf1, hf2, d, hd⟩ := ih h hInv'
        obtain ⟨d0, hd0⟩ := hpost.2.2.1
        exact ⟨vf, hf1, hf2, d0 ++ d, by rw [hd, hd0, List.append_assoc]⟩

/-- Totality of the sorter's loop on closed graphs: with fuel exceeding
the number of unvisited nodes it returns, successfully or with the
generic cycle `Exception`. -/
theorem sortLoop_total {g : Graph} (hclosed : Closed g)
    (hnd : (keys g).Nodup) :
    ∀ (fuel : Nat) (v : Visited) (o : List String),
    v.map Prod.fst = keys g → countEmpty v < fuel →
    (∃ l, sortLoop fuel g v o = some (.ok l)) ∨
      sortLoop fuel g v o = some (.error (.exn cycleMsg)) := by
  intro fuel
  induction fuel with
  | zero => intro v o _ hf; omega
  | succ f ih =>
    intro v o hkeys hf
    match hfu : getFirstUnvisited v with
    | none => exact Or.inl ⟨o, by rw [sortLoop]; simp [hfu]⟩
    | some node =>
      have hlk : lookupD v node = some .Empty :=
        getFirstUnvisited_lookup (by rw [hkeys]; exact hnd) hfu
      have hnode : node ∈ keys g := by
        rw [← hkeys]
        exact lookupD_isSome_iff.mp (by simp [hlk])
      rcases visit_total hclosed (f + 1) v o node hkeys hnode hf
        with ⟨v', o', hvis⟩ | hvis
      · obtain ⟨hpost, hperm⟩ := visit_ok hvis
        have hdec : countEmpty v' < countEmpty v :=
          countEmpty_strict hpost.1 hlk hperm
        have hkeys' : v'.map Prod.fst = keys g := by
          rw [markMono_keysEq hpost.1]; exact hkeys
        rcases ih v' o' hkeys' (by omega) with ⟨l, hl⟩ | hl
        · exact Or.inl ⟨l, by
            rw [sortLoop]
            simp only [hfu, hvis]
            rw [setItem_eq_of_lookup hperm]
            exact hl⟩
        · refine Or.inr ?_
          rw [sortLoop]
          simp only [hfu, hvis]
          rw [setItem_eq_of_lookup hperm]
          exact hl
      · exact Or.inr (by rw [sortLoop]; simp [hfu, hvis])

/-- On a closed acyclic graph the sorter's loop succeeds. -/
theorem sortLoop_acyclic {g : Graph} (hclosed : Closed g)
    (hacyc : Acyclic g) (hnd : (keys g).Nodup) :
    ∀ (fuel : Nat) (v : Visited) (o : List String),
    v.map Prod.fst = keys g → countEmpty v < fuel →
    (∀ k, lookupD v k ≠ some .Temporary) →
    ∃ l, sortLoop fuel g v o = some (.ok l) := by
  intro fuel
  induction fuel with
  | zero => intro v o _ hf _; omega
  | succ f ih =>
    intro v o hkeys hf hnt
    match hfu : getFirstUnvisited v with
    | none => exact ⟨o, by rw [sortLoop]; simp [hfu]⟩
    | some node =>
      have hlk : lookupD v node = some .Empty :=
        getFirstUnvisited_lookup (by rw [hkeys]; exact hnd) hfu
      have hnode : node ∈ keys g := by
        rw [← hkeys]
        exact lookupD_isSome_iff.mp (by simp [hlk])
      obtain ⟨v', o', hvis⟩ := visit_acyclic hclosed hacyc (f + 1) v o node
        hkeys hnode hf (fun t ht => absurd ht (hnt t))
      obtain ⟨hpost, hperm⟩ := visit_ok hvis
      have hdec : countEmpty v' < countEmpty v :=
        countEmpty_strict hpost.1 hlk hperm
      have hkeys' : v'.map Prod.fst = keys g := by
        rw [markMono_keysEq hpost.1]; exact hkeys
      have hnt' : ∀ k, lookupD v' k ≠ some .Temporary :=
        fun k hk => hnt k ((hpost.2.1 k).mp hk)
      obtain ⟨l, hl⟩ := ih v' o' hkeys' (by omega) hnt'
      refine ⟨l, ?_⟩
      rw [sortLoop]
      simp only [hfu, hvis]
      rw [setItem_eq_of_lookup hperm]
      exact hl

theorem initVisited_keys (g : Graph) :
    (g.map (fun p => (p.1, Mark.Empty))).map Prod.fst = keys g := by
  simp [keys]

theorem initVisited_countEmpty (g : Graph) :
    countEmpty (g.map (fun p => (p.1, Mark.Empty))) = g.length := by
  simp [countEmpty, List.countP_map, Function.comp]

theorem initVisited_lookup (g : Graph) (k : String) :
    lookupD (g.map (fun p => (p.1, Mark.Empty))) k = none ∨
      lookupD (g.map (fun p => (p.1, Mark.Empty))) k = some .Empty := by
  induction g with
  | nil => left; rfl
  | cons p rest ih =>
    by_cases hk : p.1 = k
    · right; simp [lookupD, hk]
    · simpa [lookupD, hk] using ih

theorem loopInv_init (g : Graph) :
    LoopInv g (g.map (fun p => (p.1, Mark.Empty))) [] := by
  refine ⟨initVisited_keys g, ?_, List.nodup_nil, ?_, ?_⟩
  · intro k hk
    rcases initVisited_lookup g k with h | h <;> rw [h] at hk <;> simp at hk
  · intro k
    rcases initVisited_lookup g k with h | h <;> rw [h] <;> simp
  · intro l1 p l2 hsplit
    exact absurd hsplit (by simp)

/-- What a successful `sort_dependency_graph` run guarantees: no
duplicates, graph-respecting order, and exactly the graph's keys. -/
theorem sortOk_final {g : Graph} {l : List String}
    (h : sortDependencyGraph g = some (.ok l)) :
    l.Nodup ∧ OrdOK g l ∧ ∀ k, k ∈ l ↔ k ∈ keys g := by
  unfold sortDependencyGraph at h
  obtain ⟨vf, hInvf, hfu, _, _⟩ := sortLoop_ok h (loopInv_init g)
  obtain ⟨hkeysf, hntf, hNodupf, hPermIfff, hOrdf⟩ := hInvf
  refine ⟨hNodupf, hOrdf, ?_⟩
  intro k
  constructor
  · intro hk
    have hp := (hPermIfff k).mpr hk
    rw [← hkeysf]
    exact lookupD_isSome_iff.mp (by simp [hp])
  · intro hk
    obtain ⟨m, hm⟩ := mem_keys_lookup (m := vf) (by rw [hkeysf]; exact hk)
    have hne : m ≠ .Empty := getFirstUnvisited_none hfu _ (lookupD_mem hm)
    have hnt : m ≠ .Temporary := fun he => hntf k (by rw [hm, he])
    have hp : m = .Permanent := by cases m <;> simp_all
    exact (hPermIfff k).mp (by rw [hm, hp])

theorem idxOf_append_left {l1 : List String} {y : String} (h : y ∈ l1)
    (l2 : List String) : idxOf (l1 ++ l2) y < l1.length := by
  induction l1 with
  | nil => simp at h
  | cons x rest ih =>
    by_cases hx : x = y
    · simp [idxOf, hx]
    · rcases List.mem_cons.mp h with rfl | h2
      · exact absurd rfl hx
      · simp only [List.cons_append, idxOf, if_neg hx]
        exact Nat.succ_lt_succ (ih h2)

theorem idxOf_append_self {l1 l2 : List String} {x : String} (h : x ∉ l1) :
    idxOf (l1 ++ x :: l2) x = l1.length := by
  induction l1 with
  | nil => simp [idxOf]
  | cons y rest ih =>
    have hyx : y ≠ x := fun he => h (by simp [he])
    simp only [List.cons_append, idxOf, if_neg hyx, List.append_eq]
    rw [ih (fun hm => h (List.mem_cons_of_mem _ hm))]
    simp

/-- A successful sort certifies acyclicity: every edge strictly decreases
the output position, so no node can reach itself. -/
theorem acyclic_of_sortOk {g : Graph} {l : List String} (h : sortDependencyGraph g = some (.ok l)) :
    Acyclic g := by
  obtain ⟨hlnd, hOrd, hmem⟩ := sortOk_final h
  have hstep : ∀ x y, edge g x y → idxOf l y < idxOf l x := by
    intro x y he
    obtain ⟨deps, hdeps, hdmem⟩ := he
    have hx : x ∈ l := (hmem x).mpr (lookupD_isSome_iff.mp (by simp [hdeps]))
    obtain ⟨l1, l2, rfl⟩ := List.append_of_mem hx
    have hy : y ∈ l1 := hOrd l1 x l2 rfl y ⟨deps, hdeps, hdmem⟩
    have hxl1 : x ∉ l1 := by
      have hmid := List.nodup_middle.mp hlnd
      exact fun hm => (List.nodup_cons.mp hmid).1 (List.mem_append_left _ hm)
    rw [idxOf_append_self hxl1]
    exact idxOf_append_left hy _
  intro x hcyc
  have hmono : ∀ a b, Relation.TransGen (edge g) a b →
      idxOf l b < idxOf l a := by
    intro a b hab
    induction hab with
    | single h1 => exact hstep _ _ h1
    | tail hab h1 ih => exact Nat.lt_trans (hstep _ _ h1) ih
  exact absurd (hmono x x hcyc) (Nat.lt_irrefl _)

/-- `sort_dependency_graph` terminates on every closed graph, either with
an ordering or with the generic cycle `Exception`. -/
theorem sortDependencyGraph_total {g : Graph} (hclosed : Closed g)
    (hnd : (keys g).Nodup) :
    (∃ l, sortDependencyGraph g = some (.ok l)) ∨
      sortDependencyGraph g = some (.error (.exn cycleMsg)) := by
  unfold sortDependencyGraph
  exact sortLoop_total hclosed hnd (g.length + 1) _ [] (initVisited_keys g)
    (by rw [initVisited_countEmpty]; omega)

/-- On a closed acyclic graph, `sort_dependency_graph` succeeds. -/
theorem sortDependencyGraph_acyclic_ok {g : Graph} (hclosed : Closed g)
    (hacyc : Acyclic g) (hnd : (keys g).Nodup) :
    ∃ l, sortDependencyGraph g = some (.ok l) := by
  unfold sortDependencyGraph
  refine sortLoop_acyclic hclosed hacyc hnd (g.length + 1) _ []
    (initVisited_keys g) (by rw [initVisited_countEmpty]; omega) ?_
  intro k hk
  rcases initVisited_lookup g k with h | h <;> rw [h] at hk <;> simp at hk

/-! ### Shared concrete evaluations -/

/-- The trees of the shared-dependency scenario (`A → C`, `B → C`). -/
def trees6 : List (String × DepTree) :=
  [("A", DepTree.node [("C", DepTree.node [])]),
   ("B", DepTree.node [("C", DepTree.node [])])]

/-- Concrete evaluation of the full graph-building pipeline on the
shared-dependency scenario.  The provider-call log shows `C` fetched
twice: the `dependencies_cache` is consulted but never written. -/
theorem prov6_run_eval :
    getDependencyGraph prov6 10 ["A", "B"] =
      some (.ok ([("A", ["C"]), ("C", []), ("B", ["C"])],
        ["A", "C", "B", "C"])) := by
  simp [getDependencyGraph, rootTrees, getAllDependencies, addToGraph,
    addEntries, addNesteds, setAdd, lookupD, dictOfList, dictInsert,
    setItem, prov6, unknownMsg, stopFold]

/-- Concrete evaluation of the merge on the shared-dependency trees. -/
theorem mergeTrees6_eval :
    addToGraph [] (.node trees6) = [("A", ["C"]), ("C", []), ("B", ["C"])] := by
  simp [trees6, addToGraph, addEntries, addNesteds, setAdd, lookupD]

/-! ### Claims -/

/-- C1.  For every dependency graph (a dict, so with no duplicate keys)
that is acyclic and in which every identifier appearing in any dependency
set is also a key, `sort_dependency_graph` returns a sequence that is a
permutation of the graph's keys — each key appears exactly once — and for
every edge `p → d` of the graph, `d` appears strictly earlier than `p` in
the sequence. -/
theorem sort_topological_correct (g : Graph) (hnd : (keys g).Nodup)
    (hclosed : Closed g) (hacyc : Acyclic g) :
    ∃ l, sortDependencyGraph g = some (.ok l) ∧ List.Perm l (keys g) ∧
      ∀ p d, edge g p d → ∀ l1 l2, l = l1 ++ p :: l2 → d ∈ l1 := by
  obtain ⟨l, hl⟩ := sortDependencyGraph_acyclic_ok hclosed hacyc hnd
  obtain ⟨hlnd, hOrd, hmem⟩ := sortOk_final hl
  refine ⟨l, hl, ?_, ?_⟩
  · rw [List.perm_ext_iff_of_nodup hlnd hnd]
    exact hmem
  · intro p d he l1 l2 hsplit
    exact hOrd l1 p l2 hsplit d he

/-- Witness for C1 at the concrete graph `A → C`, `B → C`, `C`. -/
theorem sort_topological_correct_witness :
    (keys [("A", ["C"]), ("B", ["C"]), ("C", [])]).Nodup ∧
    Closed [("A", ["C"]), ("B", ["C"]), ("C", [])] ∧
    Acyclic [("A", ["C"]), ("B", ["C"]), ("C", [])] ∧
    ∃ l, sortDependencyGraph [("A", ["C"]), ("B", ["C"]), ("C", [])] =
        some (.ok l) ∧
      List.Perm l (keys [("A", ["C"]), ("B", ["C"]), ("C", [])]) ∧
      ∀ p d, edge [("A", ["C"]), ("B", ["C"]), ("C", [])] p d →
        ∀ l1 l2, l = l1 ++ p :: l2 → d ∈ l1 :=
  have hacyc : Acyclic [("A", ["C"]), ("B", ["C"]), ("C", [])] :=
    acyclic_of_sortOk (l := ["C", "A", "B"]) (by decide)
  ⟨by decide, by decide, hacyc,
    sort_topological_correct _ (by decide) (by decide) hacyc⟩

/-- C3 counterexample: the cycle error is the generic `Exception` with a
fixed message; two cyclic graphs over disjoint node sets produce the very
same error value, so the error identifies no node (no `path`). -/
theorem cycle_error_identifies_no_node_cex :
    sortDependencyGraph [("A", ["B"]), ("B", ["A"])] =
      some (.error (.exn
        "Somehow, the dependency graph is not directed and acyclic")) ∧
    sortDependencyGraph [("X", ["Y"]), ("Y", ["X"])] =
      some (.error (.exn
        "Somehow, the dependency graph is not directed and acyclic")) := by
  constructor <;> decide

/-- C3 (amended).  For every closed dependency graph (no duplicate keys)
containing a cycle, `sort_dependency_graph` fails — it neither returns an
ordering nor runs forever — but with the generic
`Exception("Somehow, the dependency graph is not directed and acyclic")`,
whose constant message identifies no node. -/
theorem cycle_detected_amended (g : Graph) (hnd : (keys g).Nodup)
    (hclosed : Closed g) (hcyc : ∃ x, Relation.TransGen (edge g) x x) :
    sortDependencyGraph g = some (.error (.exn cycleMsg)) := by
  rcases sortDependencyGraph_total hclosed hnd with ⟨l, hl⟩ | hl
  · obtain ⟨x, hx⟩ := hcyc
    exact absurd hx (acyclic_of_sortOk hl x)
  · exact hl

/-- Witness for the amended C3 at the cycle `A ↔ B`. -/
theorem cycle_detected_amended_witness :
    (keys [("A", ["B"]), ("B", ["A"])]).Nodup ∧
    Closed [("A", ["B"]), ("B", ["A"])] ∧
    (∃ x, Relation.TransGen (edge [("A", ["B"]), ("B", ["A"])]) x x) ∧
    sortDependencyGraph [("A", ["B"]), ("B", ["A"])] =
      some (.error (.exn cycleMsg)) :=
  have e1 : edge [("A", ["B"]), ("B", ["A"])] "A" "B" :=
    ⟨["B"], by decide, by decide⟩
  have e2 : edge [("A", ["B"]), ("B", ["A"])] "B" "A" :=
    ⟨["A"], by decide, by decide⟩
  have hcyc : ∃ x, Relation.TransGen (edge [("A", ["B"]), ("B", ["A"])]) x x :=
    ⟨"A", Relation.TransGen.tail (Relation.TransGen.single e1) e2⟩
  ⟨by decide, by decide, hcyc,
    cycle_detected_amended _ (by decide) (by decide) hcyc⟩

/-- C4.  The tree builder has no "in progress" guard: with a provider
reporting the true cycle `A → B → A`, `get_all_dependencies("A")`
exhausts every recursion bound — the Python code recurses without
returning (until the interpreter kills it), instead of terminating with
an empty or partial result as the spec requires. -/
theorem tree_builder_cycle_diverges :
    ∀ fuel : Nat, getAllDependencies provCyc fuel [] "A" [] = none :=
  fun fuel => getAllDependencies_provCyc_none fuel [] "A" (Or.inl rfl)

/-- C2.  Running the pipeline on roots `A` and `B`, both depending on
`C`, calls the dependency provider (`get_dependencies`) twice for `C`:
the memoization cache is read but never written, so nothing is ever
cached, contradicting the code's own comment and the spec. -/
theorem dependencies_cache_ineffective :
    getDependencyGraph prov6 10 ["A", "B"] =
      some (.ok ([("A", ["C"]), ("C", []), ("B", ["C"])],
        ["A", "C", "B", "C"])) ∧
    (["A", "C", "B", "C"].count "C") = 2 :=
  ⟨prov6_run_eval, by decide⟩

/-- C5.  After merging any list of dependency trees into the empty graph
(as `get_dependency_graph` does), every identifier appearing in any
dependency set of the resulting graph is itself a key of the graph, with
its own (possibly empty) dependency set. -/
theorem merge_closure (trees : List (String × DepTree)) :
    ∀ p ∈ addToGraph [] (.node trees), ∀ m ∈ p.2,
    ∃ s, lookupD (addToGraph [] (.node trees)) m = some s := by
  intro p hp m hm
  have h := closedBut_addEntries [] trees []
    (by intro q hq; simp at hq)
  rw [addToGraph] at hp ⊢
  rcases h p hp m hm with h1 | h1
  · exact mem_keys_lookup h1
  · simp at h1

/-- Witness for C5 on the shared-dependency trees. -/
theorem merge_closure_witness :
    (("A", ["C"]) ∈ addToGraph [] (.node trees6)) ∧
    ("C" ∈ (("A", ["C"]) : String × List String).2) ∧
    (∃ s, lookupD (addToGraph [] (.node trees6)) "C" = some s) :=
  have hp : ("A", ["C"]) ∈ addToGraph [] (.node trees6) := by
    rw [mergeTrees6_eval]; decide
  ⟨hp, by decide, merge_closure trees6 ("A", ["C"]) hp "C" (by decide)⟩

/-- C6.  For roots `A` and `B` both depending directly on `C` (which has
no dependencies), the merged graph has exactly one entry for `C`, with an
empty dependency set, and the sorted output contains `C` exactly once,
strictly before both `A` and `B`. -/
theorem shared_dependency_single_node :
    getDependencyGraph prov6 10 ["A", "B"] =
      some (.ok ([("A", ["C"]), ("C", []), ("B", ["C"])],
        ["A", "C", "B", "C"])) ∧
    (([("A", ["C"]), ("C", []), ("B", ["C"])] : Graph).filter
      (fun p => p.1 == "C")) = [("C", [])] ∧
    sortDependencyGraph [("A", ["C"]), ("C", []), ("B", ["C"])] =
      some (.ok ["C", "A", "B"]) ∧
    (["C", "A", "B"].count "C") = 1 ∧
    idxOf ["C", "A", "B"] "C" < idxOf ["C", "A", "B"] "A" ∧
    idxOf ["C", "A", "B"] "C" < idxOf ["C", "A", "B"] "B" :=
  ⟨prov6_run_eval, by decide, by decide, by decide, by decide, by decide⟩

/-- C7 counterexample: for a root the provider cannot resolve, the run
fails with the plain generic `Exception` class (message
`"Package A does not exist"`) — the same class used for cycle errors —
not a distinct typed `UnknownPackage` error. -/
theorem unknown_package_generic_cex :
    getDependencyGraph provU 5 ["A"] =
      some (.error (.exn (unknownMsg "A"))) ∧
    isGenericException (.exn (unknownMsg "A")) = true := by
  constructor <;> decide

/-- C7 (amended).  Every error of a `get_dependency_graph` run is the
generic `Exception` whose message names a package the provider cannot
resolve, propagated unchanged to the caller; and whenever any package
the provider reports as nonexistent is reachable from a root through
provider-reported dependencies — the root itself or a transitive
dependency — a terminating run returns an error, never a graph. -/
theorem unknown_package_amended :
    (∀ (prov : Provider) (fuel : Nat) (roots : List String) (e : PyErr),
      getDependencyGraph prov fuel roots = some (.error e) →
      ∃ p, prov p = none ∧ e = .exn (unknownMsg p)) ∧
    (∀ (prov : Provider) (fuel : Nat) (roots : List String)
      (root p : String) (r : Except PyErr (Graph × List String)),
      root ∈ roots → Relation.ReflTransGen (provStep prov) root p →
      prov p = none →
      getDependencyGraph prov fuel roots = some r → ∃ e, r = .error e) := by
  constructor
  · intro prov fuel roots e h
    unfold getDependencyGraph at h
    match hrt : rootTrees prov fuel roots [] with
    | none => simp [hrt] at h
    | some (.error e') =>
      simp [hrt] at h
      subst h
      exact rootTrees_error hrt
    | some (.ok x) => simp [hrt] at h
  · intro prov fuel roots root p r hmem hreach hnone h
    unfold getDependencyGraph at h
    match hrt : rootTrees prov fuel roots [] with
    | none => simp [hrt] at h
    | some (.error e') =>
      simp [hrt] at h
      exact ⟨e', h.symm⟩
    | some (.ok x) =>
      exact absurd hnone (rootTrees_ok_reaches hrt root hmem p hreach)

/-- Witness for the amended C7 at a nonexistent transitive dependency:
root `A` exists, its dependency `B` does not. -/
theorem unknown_package_amended_witness :
    (getDependencyGraph provT 5 ["A"] =
      some (.error (.exn (unknownMsg "B")))) ∧
    (∃ p, provT p = none ∧
      PyErr.exn (unknownMsg "B") = .exn (unknownMsg p)) ∧
    ("A" ∈ ["A"]) ∧ Relation.ReflTransGen (provStep provT) "A" "B" ∧
    (provT "B" = none) ∧
    (∃ e, (Except.error (.exn (unknownMsg "B")) :
      Except PyErr (Graph × List String)) = .error e) :=
  have hstep : provStep provT "A" "B" := ⟨["B"], by decide, by decide⟩
  have hreach : Relation.ReflTransGen (provStep provT) "A" "B" :=
    Relation.ReflTransGen.single hstep
  ⟨by decide,
    unknown_package_amended.1 provT 5 ["A"] _ (by decide),
    by decide, hreach, by decide,
    unknown_package_amended.2 provT 5 ["A"] "A" "B" _ (by decide) hreach
      (by decide) (by decide)⟩

/-- C8 counterexample: `url_cache` is a module-level global living for
the whole process, so a response fetched by one run is still cached when
a later run starts.  A run over the empty cache fetches `"u"` and leaves
the entry behind; a later run starting from that persisted cache fetches
nothing — run 1's write is observable in run 2's behavior, refuting the
claim that the caches are created fresh per run and discarded. -/
theorem url_cache_cross_run_cex :
    getInfoTableResponse (fun _ => ⟨200, "ok"⟩) [] "u" =
      ([("u", ⟨200, "ok"⟩)], ⟨200, "ok"⟩, ["u"]) ∧
    getInfoTableResponse (fun _ => ⟨200, "ok"⟩) [("u", ⟨200, "ok"⟩)] "u" =
      ([("u", ⟨200, "ok"⟩)], ⟨200, "ok"⟩, []) := by
  constructor <;> decide

/-- C8 (amended).  The caches are process-wide globals: any truthy
response already in `url_cache` — in particular one written by an
earlier run in the same process — is reused by a later run without any
fetch, and the cache is returned unchanged.  (The dependencies cache,
though also global, is never written at all.) -/
theorem url_cache_persistent_amended (web : String → Response)
    (cache : List (String × Response)) (url : String) (r : Response)
    (hc : lookupD cache url = some r) (ht : respTruthy r = true) :
    getInfoTableResponse web cache url = (cache, r, []) := by
  unfold getInfoTableResponse
  rw [hc]
  simp [ht]

/-- Witness for the amended C8: the cached response is served even though
the web oracle would answer differently. -/
theorem url_cache_persistent_amended_witness :
    (lookupD [("u", (⟨200, "ok"⟩ : Response))] "u" = some ⟨200, "ok"⟩) ∧
    (respTruthy ⟨200, "ok"⟩ = true) ∧
    getInfoTableResponse (fun _ => ⟨500, "x"⟩) [("u", ⟨200, "ok"⟩)] "u" =
      ([("u", ⟨200, "ok"⟩)], ⟨200, "ok"⟩, []) :=
  ⟨by decide, by decide,
    url_cache_persistent_amended _ _ _ _ (by decide) (by decide)⟩

/-- C9.  `add_to_graph` only grows the graph: every key present
beforehand is still present afterwards, and its previous dependency set
is a subset of its new one — no key or edge is removed or overwritten. -/
theorem add_to_graph_monotone (g : Graph) (t : DepTree) (k : String)
    (s : List String) (h : lookupD g k = some s) :
    ∃ s', lookupD (addToGraph g t) k = some s' ∧ s ⊆ s' := by
  cases t with
  | node es =>
    rw [addToGraph]
    exact addEntries_ext g es k s h

/-- Witness for C9: a pre-existing entry survives a merge that touches
the same key. -/
theorem add_to_graph_monotone_witness :
    (lookupD [("A", ["X"])] "A" = some ["X"]) ∧
    ∃ s', lookupD (addToGraph [("A", ["X"])] (.node trees6)) "A" = some s' ∧
      ["X"] ⊆ s' :=
  ⟨by decide, add_to_graph_monotone [("A", ["X"])] (.node trees6) "A" ["X"]
    (by decide)⟩

/-- C10.  `sort_dependency_graph` requires the closure invariant: on the
graph `{A ↦ {B}}` whose member `B` is not a key, `visit` fails with
`KeyError("B")` (from the `visited[node]` lookup) rather than returning
an ordering or reporting a cycle. -/
theorem sort_requires_closure :
    sortDependencyGraph [("A", ["B"])] = some (.error (.keyError "B")) := by
  decide

end Cranlock
